import Mathlib

/-!
Verification of the `Graph` adjacency-list data structure from `src/graph.py`.

The Python class stores `adjacency_list : dict[str, set[(str, int|float|None)]]`.
We embed it shallowly:
* a node identifier is a `String`;
* an edge weight is an `Option Int` (`none` = unweighted, mirroring Python `None`);
* a Python `set` of `(neighbor, weight)` tuples is a duplicate-free `List`
  maintained by `sinsert` (insert-if-absent, mirroring `set.add`) and
  `List.filter` (mirroring `set.discard` / set difference);
* the `dict` is an insertion-ordered association list `List (String × AdjSet)`;
  `setItem` models `d[k] = v` (update in place if the key exists, else append)
  and `delItem` models `del d[k]`.
* Python `raise ValueError`/`KeyError` becomes `Except (GraphError × Graph) _`:
  the error carries the state of the object at the moment the exception
  propagates, so that atomicity-on-failure is expressible.
* the class-level counter `Graph.latest_node_num` is threaded explicitly.
-/

abbrev Weight := Option Int

abbrev AdjSet := List (String × Weight)

abbrev Graph := List (String × AdjSet)

/-- Python `set.add`: insert the element unless it is already a member. -/
def sinsert {α : Type} [DecidableEq α] (x : α) (s : List α) : List α :=
  if x ∈ s then s else x :: s

/-- Python `node_name in self` (`__contains__`): membership among the dict keys. -/
def contains (g : Graph) (n : String) : Bool :=
  g.any (fun p => decide (p.1 = n))

/-- Python `self[k]` (`__getitem__`), total: `none` models a raised `KeyError`. -/
def lookup (g : Graph) (n : String) : Option AdjSet :=
  (g.find? (fun p => decide (p.1 = n))).map Prod.snd

/-- `lookup` with default `[]`, for positions where the key is known present. -/
def lookupD (g : Graph) (n : String) : AdjSet :=
  (lookup g n).getD []

/-- Python `self[k] = v` (`__setitem__`): replace in place if present, else append. -/
def setItem (g : Graph) (k : String) (v : AdjSet) : Graph :=
  if contains g k then
    g.map (fun p => if p.1 = k then (k, v) else p)
  else
    g ++ [(k, v)]

/-- Python `del self[k]` / `dict.pop(k)`'s removal effect on the mapping. -/
def delItem (g : Graph) (k : String) : Graph :=
  g.filter (fun p => decide (p.1 ≠ k))

/-- Error taxonomy of the spec; Python raises `ValueError` with distinguishing
messages (`NotFound`, `AlreadyExists`, `EdgeNotFound`) or a `KeyError`. -/
inductive GraphError where
  | notFound (name : String)
  | alreadyExists (name : String)
  | edgeNotFound (msg : String)
  | keyError (name : String)
deriving DecidableEq, Repr

/-- Python `f"Node {Graph.latest_node_num}"`. -/
def genName (ctr : Nat) : String := "Node " ++ toString ctr

/-- `Graph.add_node`: rejects a supplied name that is already a key, otherwise
inserts the supplied or autogenerated name with an empty adjacency set.
Returns the new graph, the new class counter, and the Python return value
(the function body has no `return`, so Python returns `None`). -/
def add_node (g : Graph) (newName : Option String) (ctr : Nat) :
    Except (GraphError × Graph) (Graph × Nat × Option String) :=
  match newName with
  | some n =>
      if contains g n then
        .error (.alreadyExists n, g)
      else
        .ok (setItem g n [], ctr, none)
  | none =>
      .ok (setItem g (genName ctr) [], ctr + 1, none)

/-- `Graph.delete_node`: remove the key, then purge every `(deleted, w)` tuple
from every remaining adjacency set. -/
def delete_node (g : Graph) (d : String) : Except (GraphError × Graph) Graph :=
  if contains g d then
    .ok ((delItem g d).map (fun p => (p.1, p.2.filter (fun e => decide (e.1 ≠ d)))))
  else
    .error (.notFound d, g)

/-- `Graph.edge_exists`: with `weight = none` any `(to, *)` tuple in `from`'s
set counts; with a concrete weight the exact tuple must be present. A missing
`from` node yields `False` (the `KeyError` is caught). -/
def edge_exists (g : Graph) (a b : String) (w : Weight) : Bool :=
  match lookup g a with
  | none => false
  | some s =>
      match w with
      | none => s.any (fun e => decide (e.1 = b))
      | some v => s.any (fun e => decide (e = (b, some v)))

/-- `Graph.add_edge`: both endpoints must exist; add `(b, w)` to `a`'s set and,
if undirected, `(a, w)` to `b`'s set. -/
def add_edge (g : Graph) (a b : String) (w : Weight) (und : Bool) :
    Except (GraphError × Graph) Graph :=
  if contains g a then
    if contains g b then
      let g1 := setItem g a (sinsert (b, w) (lookupD g a))
      if und then
        .ok (setItem g1 b (sinsert (a, w) (lookupD g1 b)))
      else
        .ok g1
    else
      .error (.notFound b, g)
  else
    .error (.notFound a, g)

/-- The error message built by `Graph.remove_edge`, including the diagnostic
hint when the reverse directed edge exists. -/
def removeEdgeMsg (g : Graph) (a b : String) (w : Weight) : String :=
  "No edge exists from " ++ a ++ " to " ++ b ++ "." ++
    (if edge_exists g b a w then
       " Did you mean the edge " ++ b ++ " -> " ++ a ++ "?"
     else "")

/-- `Graph.remove_edge`: validates with `edge_exists(a, b, w)`, then removes the
exact tuple `(b, w)` from `a`'s set and, if undirected, `(a, w)` from `b`'s set.
The second removal re-indexes `self[b]`, which raises `KeyError` when `b` is
not a key — after `a`'s set was already mutated. -/
def remove_edge (g : Graph) (a b : String) (w : Weight) (und : Bool) :
    Except (GraphError × Graph) Graph :=
  if edge_exists g a b w then
    let g1 := setItem g a ((lookupD g a).filter (fun e => decide (e ≠ (b, w))))
    if und then
      match lookup g1 b with
      | some s => .ok (setItem g1 b (s.filter (fun e => decide (e ≠ (a, w)))))
      | none => .error (.keyError b, g1)
    else
      .ok g1
  else
    .error (.edgeNotFound (removeEdgeMsg g a b w), g)

/-- The rewrite of one adjacency set performed by the rename loop: Python
builds a fresh `set`, adding each tuple with `old` relabeled to `new`. -/
def rewriteSet (old new : String) (s : AdjSet) : AdjSet :=
  s.foldl (fun acc e => sinsert (if e.1 = old then (new, e.2) else e) acc) []

/-- `Graph.rename_node`: check `old` exists, call `add_node(new)` (which raises
`AlreadyExists` when `new` is a key — including `new = old`), transplant
`old`'s adjacency set to `new` via `pop`, then rewrite every node's adjacency
set, relabeling `old` to `new`. -/
def rename_node (g : Graph) (old new : String) : Except (GraphError × Graph) Graph :=
  if contains g old then
    match add_node g (some new) 0 with
    | .error (e, gerr) => .error (e, gerr)
    | .ok (g1, _, _) =>
        let vOld := lookupD g1 old
        let g2 := setItem (delItem g1 old) new vOld
        .ok (g2.map (fun p => (p.1, rewriteSet old new p.2)))
  else
    .error (.notFound old, g)

/-- `Graph.get_all_edges` inner step: for one `(first, (second, w))` triple,
upgrade an already-emitted mirror triple to bidirectional, else emit a fresh
one-directional entry. `edge_list` is a Python set, modeled as a
duplicate-free list. -/
def processEdge (first : String) (acc : List (String × String × Weight × Bool))
    (e : String × Weight) : List (String × String × Weight × Bool) :=
  if (e.1, first, e.2, false) ∈ acc then
    sinsert (first, e.1, e.2, true)
      (acc.filter (fun x => decide (x ≠ (e.1, first, e.2, false))))
  else
    sinsert (first, e.1, e.2, false) acc

/-- `Graph.get_all_edges`: scan every `(node, neighbor, weight)` triple. -/
def get_all_edges (g : Graph) : List (String × String × Weight × Bool) :=
  g.foldl (fun acc p => p.2.foldl (processEdge p.1) acc) []

/-- The §3 data-model invariant: every `(b, w)` entry in any adjacency set has
`b` present as a node identifier (no dangling references). -/
def Nodangling (g : Graph) : Prop :=
  ∀ p ∈ g, ∀ e ∈ p.2, contains g e.1 = true

instance : DecidablePred Nodangling := by
  intro g
  unfold Nodangling
  infer_instance

/-- The Python `dict` guarantee that keys are unique. -/
def KeysNodup (g : Graph) : Prop :=
  (g.map Prod.fst).Nodup

instance : DecidablePred KeysNodup := by
  intro g
  unfold KeysNodup
  infer_instance

/-! ### Basic lemmas about the dict/set model -/

theorem mem_sinsert {α : Type} [DecidableEq α] (x y : α) (s : List α) :
    y ∈ sinsert x s ↔ y = x ∨ y ∈ s := by
  unfold sinsert
  by_cases h : x ∈ s
  · simp only [if_pos h]
    constructor
    · exact Or.inr
    · rintro (rfl | hy)
      · exact h
      · exact hy
  · simp only [if_neg h, List.mem_cons]

theorem sinsert_of_mem {α : Type} [DecidableEq α] {x : α} {s : List α} (h : x ∈ s) :
    sinsert x s = s := by
  unfold sinsert
  exact if_pos h

theorem mem_foldl_sinsert {α β : Type} [DecidableEq β] (f : α → β) :
    ∀ (l : List α) (init : List β) (y : β),
      y ∈ l.foldl (fun acc e => sinsert (f e) acc) init ↔
        y ∈ init ∨ ∃ e ∈ l, f e = y := by
  intro l
  induction l with
  | nil => intro init y; simp
  | cons x t ih =>
      intro init y
      simp only [List.foldl_cons, ih, mem_sinsert, List.mem_cons]
      constructor
      · rintro ((rfl | hy) | ⟨e, he, rfl⟩)
        · exact Or.inr ⟨x, Or.inl rfl, rfl⟩
        · exact Or.inl hy
        · exact Or.inr ⟨e, Or.inr he, rfl⟩
      · rintro (hy | ⟨e, (rfl | he), rfl⟩)
        · exact Or.inl (Or.inr hy)
        · exact Or.inl (Or.inl rfl)
        · exact Or.inr ⟨e, he, rfl⟩

theorem contains_iff_exists_mem (g : Graph) (n : String) :
    contains g n = true ↔ ∃ s, (n, s) ∈ g := by
  unfold contains
  rw [List.any_eq_true]
  constructor
  · rintro ⟨p, hp, hdec⟩
    rw [decide_eq_true_iff] at hdec
    exact ⟨p.2, by rwa [← hdec] ⟩
  · rintro ⟨s, hs⟩
    exact ⟨(n, s), hs, by simp⟩

theorem lookup_mem {g : Graph} {n : String} {s : AdjSet}
    (h : lookup g n = some s) : (n, s) ∈ g := by
  unfold lookup at h
  cases hf : g.find? (fun p => decide (p.1 = n)) with
  | none => rw [hf] at h; simp at h
  | some p =>
      rw [hf] at h
      simp only [Option.map] at h
      have hmem := List.mem_of_find?_eq_some hf
      have hp := List.find?_some hf
      rw [decide_eq_true_iff] at hp
      have : p = (n, s) := by
        cases p with
        | mk p1 p2 => simp_all
      rwa [this] at hmem

theorem lookup_isSome_of_contains {g : Graph} {n : String}
    (h : contains g n = true) : ∃ s, lookup g n = some s := by
  rw [contains_iff_exists_mem] at h
  obtain ⟨s, hs⟩ := h
  unfold lookup
  cases hf : g.find? (fun p => decide (p.1 = n)) with
  | none =>
      exfalso
      have := List.find?_eq_none.mp hf (n, s) hs
      simp at this
  | some p => exact ⟨p.2, rfl⟩

theorem contains_of_lookup {g : Graph} {n : String} {s : AdjSet}
    (h : lookup g n = some s) : contains g n = true := by
  rw [contains_iff_exists_mem]
  exact ⟨s, lookup_mem h⟩

theorem contains_eq_false_iff (g : Graph) (n : String) :
    contains g n = false ↔ ∀ p ∈ g, p.1 ≠ n := by
  unfold contains
  rw [← Bool.not_eq_true, List.any_eq_true]
  push_neg
  constructor
  · intro h p hp
    have := h p hp
    simpa using this
  · intro h p hp
    simpa using h p hp

theorem lookup_eq_none_of_not_contains {g : Graph} {n : String}
    (h : contains g n = false) : lookup g n = none := by
  unfold lookup
  rw [contains_eq_false_iff] at h
  rw [List.find?_eq_none.mpr]
  · rfl
  · intro p hp
    simpa using h p hp

theorem keys_setItem_of_contains {g : Graph} {k : String} (v : AdjSet)
    (h : contains g k = true) :
    (setItem g k v).map Prod.fst = g.map Prod.fst := by
  unfold setItem
  rw [if_pos h, List.map_map]
  apply List.map_congr_left
  intro p _
  by_cases hp : p.1 = k
  · simp [hp]
  · simp [hp]

theorem contains_setItem (g : Graph) (k : String) (v : AdjSet) (n : String) :
    contains (setItem g k v) n = true ↔ contains g n = true ∨ n = k := by
  unfold setItem
  by_cases hc : contains g k = true
  · rw [if_pos hc]
    constructor
    · intro h
      rw [contains_iff_exists_mem] at h
      obtain ⟨s, hs⟩ := h
      obtain ⟨p, hp, hps⟩ := List.mem_map.mp hs
      by_cases hpk : p.1 = k
      · rw [if_pos hpk] at hps
        right
        have := congrArg Prod.fst hps
        simpa using this.symm
      · rw [if_neg hpk] at hps
        left
        rw [contains_iff_exists_mem]
        exact ⟨s, by rwa [hps] at hp⟩
    · rintro (h | rfl)
      · rw [contains_iff_exists_mem] at h ⊢
        obtain ⟨s, hs⟩ := h
        by_cases hnk : n = k
        · subst hnk
          exact ⟨v, List.mem_map.mpr ⟨(n, s), hs, by simp⟩⟩
        · exact ⟨s, List.mem_map.mpr ⟨(n, s), hs, by simp [hnk]⟩⟩
      · rw [contains_iff_exists_mem] at hc ⊢
        obtain ⟨s, hs⟩ := hc
        exact ⟨v, List.mem_map.mpr ⟨(n, s), hs, by simp⟩⟩
  · rw [if_neg hc]
    unfold contains
    rw [List.any_append]
    simp only [List.any_cons, List.any_nil, Bool.or_false, Bool.or_eq_true,
      decide_eq_true_iff]
    exact or_congr Iff.rfl eq_comm

theorem contains_setItem_of (g : Graph) (k : String) (v : AdjSet) {n : String}
    (h : contains g n = true) : contains (setItem g k v) n = true :=
  (contains_setItem g k v n).mpr (Or.inl h)

theorem lookup_setItem_self (g : Graph) (k : String) (v : AdjSet) :
    lookup (setItem g k v) k = some v := by
  unfold setItem
  by_cases hc : contains g k = true
  · rw [if_pos hc]
    rw [contains_iff_exists_mem] at hc
    obtain ⟨s, hs⟩ := hc
    unfold lookup
    induction g with
    | nil => simp at hs
    | cons p t ih =>
        by_cases hpk : p.1 = k
        · simp [List.find?, hpk]
        · rcases List.mem_cons.mp hs with h1 | h1
          · exact absurd (congrArg Prod.fst h1).symm hpk
          · simp only [List.map_cons, List.find?, if_neg hpk]
            rw [decide_eq_false hpk]
            simp only [Bool.false_eq_true]
            exact ih h1
  · rw [Bool.not_eq_true] at hc
    rw [if_neg (by simp [hc])]
    unfold lookup
    rw [List.find?_append]
    rw [List.find?_eq_none.mpr, Option.none_or]
    · simp [List.find?]
    · intro p hp
      rw [contains_eq_false_iff] at hc
      simpa using hc p hp

theorem lookup_setItem_ne (g : Graph) (k : String) (v : AdjSet) {n : String}
    (h : n ≠ k) : lookup (setItem g k v) n = lookup g n := by
  have hkn : ¬((k, v).1 = n) := fun hh => h (hh.symm)
  unfold setItem
  by_cases hc : contains g k = true
  · rw [if_pos hc]
    clear hc
    unfold lookup
    induction g with
    | nil => rfl
    | cons p t ih =>
        simp only [List.map_cons]
        by_cases hpk : p.1 = k
        · rw [if_pos hpk]
          rw [List.find?_cons_of_neg, List.find?_cons_of_neg]
          · exact ih
          · simp only [hpk, decide_eq_true_iff]
            exact fun hh => h hh.symm
          · simpa using hkn
        · rw [if_neg hpk]
          by_cases hpn : p.1 = n
          · rw [List.find?_cons_of_pos, List.find?_cons_of_pos] <;> simp [hpn]
          · rw [List.find?_cons_of_neg, List.find?_cons_of_neg]
            · exact ih
            · simpa using hpn
            · simpa using hpn
  · rw [if_neg hc]
    unfold lookup
    rw [List.find?_append]
    cases hf : List.find? (fun p => decide (p.1 = n)) g with
    | some q => rfl
    | none =>
        simp only [Option.none_or]
        rw [List.find?_cons_of_neg]
        · rfl
        · simpa using hkn

theorem mem_setItem {g : Graph} {k : String} {v : AdjSet} {p : String × AdjSet}
    (h : p ∈ setItem g k v) : (p ∈ g ∧ p.1 ≠ k) ∨ p = (k, v) := by
  unfold setItem at h
  by_cases hc : contains g k = true
  · rw [if_pos hc] at h
    obtain ⟨q, hq, hqp⟩ := List.mem_map.mp h
    by_cases hqk : q.1 = k
    · rw [if_pos hqk] at hqp
      exact Or.inr hqp.symm
    · rw [if_neg hqk] at hqp
      subst hqp
      exact Or.inl ⟨hq, hqk⟩
  · rw [if_neg hc] at h
    rw [Bool.not_eq_true, contains_eq_false_iff] at hc
    rcases List.mem_append.mp h with h1 | h1
    · exact Or.inl ⟨h1, hc p h1⟩
    · exact Or.inr (by simpa using h1)

theorem mem_delItem {g : Graph} {k : String} {p : String × AdjSet} :
    p ∈ delItem g k ↔ p ∈ g ∧ p.1 ≠ k := by
  unfold delItem
  rw [List.mem_filter]
  simp

theorem contains_delItem (g : Graph) (k n : String) :
    contains (delItem g k) n = true ↔ contains g n = true ∧ n ≠ k := by
  rw [contains_iff_exists_mem]
  constructor
  · rintro ⟨s, hs⟩
    rw [mem_delItem] at hs
    exact ⟨(contains_iff_exists_mem g n).mpr ⟨s, hs.1⟩, hs.2⟩
  · rintro ⟨h1, h2⟩
    rw [contains_iff_exists_mem] at h1
    obtain ⟨s, hs⟩ := h1
    exact ⟨s, mem_delItem.mpr ⟨hs, h2⟩⟩

/-! ### Helper lemmas about edge_exists -/

theorem edge_exists_of_mem {g : Graph} {a b : String} {w : Weight} {s : AdjSet}
    (hs : lookup g a = some s) (hmem : (b, w) ∈ s) : edge_exists g a b w = true := by
  unfold edge_exists
  rw [hs]
  cases w with
  | none => exact List.any_eq_true.mpr ⟨(b, none), hmem, by simp⟩
  | some v => exact List.any_eq_true.mpr ⟨(b, some v), hmem, by simp⟩

theorem any_eq_self_filter_ne_eq_false {α : Type} [DecidableEq α] (s : List α) (x : α) :
    ((s.filter (fun e => decide (e ≠ x))).any (fun e => decide (e = x))) = false := by
  cases hres : (s.filter (fun e => decide (e ≠ x))).any (fun e => decide (e = x)) with
  | false => rfl
  | true =>
      exfalso
      obtain ⟨e, he, hd⟩ := List.any_eq_true.mp hres
      rw [List.mem_filter] at he
      rw [decide_eq_true_iff] at hd
      have := he.2
      rw [decide_eq_true_iff] at this
      exact this hd

/-- The name finally used by `add_node`: the supplied one, else the generated one. -/
def finalName (newName : Option String) (ctr : Nat) : String :=
  newName.getD (genName ctr)

/-- C1 (amended): on success `add_node` inserts the final node identifier used
(the supplied id when one is given, the autogenerated id when none is given)
with an empty adjacency set, but its Python return value is `None`, not that
identifier. -/
theorem add_node_inserts_final_name_but_returns_none
    (g : Graph) (newName : Option String) (ctr : Nat)
    (g' : Graph) (ctr' : Nat) (ret : Option String)
    (h : add_node g newName ctr = .ok (g', ctr', ret)) :
    ret = none ∧ lookup g' (finalName newName ctr) = some [] := by
  cases newName with
  | some n =>
      simp only [add_node] at h
      by_cases hc : contains g n = true
      · rw [if_pos hc] at h
        exact absurd h (by simp)
      · rw [if_neg hc] at h
        simp only [Except.ok.injEq, Prod.mk.injEq] at h
        obtain ⟨h1, _, h3⟩ := h
        subst h1
        exact ⟨h3.symm, lookup_setItem_self g n []⟩
  | none =>
      simp only [add_node] at h
      simp only [Except.ok.injEq, Prod.mk.injEq] at h
      obtain ⟨h1, _, h3⟩ := h
      subst h1
      exact ⟨h3.symm, lookup_setItem_self g (genName ctr) []⟩

/-- C1 counterexample: `add_node` on the empty graph with supplied id `"A"`
succeeds, but the returned value is `None` rather than the final identifier
`"A"` that the claim says is returned. -/
theorem add_node_return_value_counterexample :
    add_node [] (some "A") 1 = .ok ([("A", [])], 1, none) ∧
      (none : Option String) ≠ some "A" :=
  ⟨rfl, by decide⟩

/-- C1 witness. -/
theorem add_node_inserts_final_name_but_returns_none_witness :
    (none : Option String) = none ∧ lookup [("A", [])] (finalName (some "A") 1) = some [] :=
  add_node_inserts_final_name_but_returns_none [] (some "A") 1 [("A", [])] 1 none rfl

/-- C2 counterexample: on a graph with the single undirected weighted edge
(A, B, 5), `remove_edge("A", "B")` with the omitted (`None`) weight succeeds —
its validation accepts any A→B edge — but it only removes the exact tuple
`("B", None)`, so the graph is unchanged and `edge_exists("A", "B")` is still
true afterwards. -/
theorem remove_edge_default_weight_counterexample :
    remove_edge [("A", [("B", some 5)]), ("B", [("A", some 5)])] "A" "B" none true =
      .ok [("A", [("B", some 5)]), ("B", [("A", some 5)])] ∧
    edge_exists [("A", [("B", some 5)]), ("B", [("A", some 5)])] "A" "B" none = true :=
  ⟨rfl, rfl⟩

/-- C2 (amended): when an explicit (non-`None`) weight is supplied, a
successful `remove_edge(A, B, weight, undirected)` destroys the edge:
afterwards `edge_exists(A, B, weight)` is false. When the weight is omitted
(`None`), only the exact unweighted tuple `(B, None)` is removed from A's set,
so `edge_exists(A, B)` can remain true. -/
theorem remove_edge_explicit_weight_removes (g : Graph) (a b : String) (v : Int)
    (und : Bool) (g' : Graph) (h : remove_edge g a b (some v) und = .ok g') :
    edge_exists g' a b (some v) = false := by
  unfold remove_edge at h
  by_cases hval : edge_exists g a b (some v) = true
  · rw [if_pos hval] at h
    simp only [] at h
    cases und with
    | false =>
        injection h with h2
        subst h2
        unfold edge_exists
        rw [lookup_setItem_self]
        exact any_eq_self_filter_ne_eq_false _ _
    | true =>
        cases hl : lookup (setItem g a
            ((lookupD g a).filter (fun e => decide (e ≠ (b, some v))))) b with
        | none =>
            rw [hl] at h
            exact absurd h (by simp)
        | some s =>
            rw [hl] at h
            injection h with h2
            subst h2
            by_cases hab : a = b
            · subst hab
              unfold edge_exists
              rw [lookup_setItem_self]
              exact any_eq_self_filter_ne_eq_false _ _
            · unfold edge_exists
              rw [lookup_setItem_ne _ _ _ hab, lookup_setItem_self]
              exact any_eq_self_filter_ne_eq_false _ _
  · rw [if_neg hval] at h
    exact absurd h (by simp)

/-- C2 witness. -/
theorem remove_edge_explicit_weight_removes_witness :
    edge_exists [("A", []), ("B", [])] "A" "B" (some 5) = false :=
  remove_edge_explicit_weight_removes
    [("A", [("B", some 5)]), ("B", [("A", some 5)])] "A" "B" 5 true
    [("A", []), ("B", [])] rfl

/-- C7: for every graph containing nodes A and B, after a successful
`add_edge(A, B, w)` with `undirected=True`, both `edge_exists(A, B, w)` and
`edge_exists(B, A, w)` are true. -/
theorem add_edge_undirected_mirror (g : Graph) (a b : String) (w : Weight)
    (ha : contains g a = true) (hb : contains g b = true)
    (g' : Graph) (h : add_edge g a b w true = .ok g') :
    edge_exists g' a b w = true ∧ edge_exists g' b a w = true := by
  unfold add_edge at h
  rw [if_pos ha, if_pos hb] at h
  simp only [if_true] at h
  injection h with h2
  subst h2
  refine ⟨?_, edge_exists_of_mem (lookup_setItem_self _ _ _)
    ((mem_sinsert _ _ _).mpr (Or.inl rfl))⟩
  by_cases hab : a = b
  · subst hab
    exact edge_exists_of_mem (lookup_setItem_self _ _ _)
      ((mem_sinsert _ _ _).mpr (Or.inl rfl))
  · exact edge_exists_of_mem
      ((lookup_setItem_ne _ _ _ hab).trans (lookup_setItem_self _ _ _))
      ((mem_sinsert _ _ _).mpr (Or.inl rfl))

/-- C7 witness. -/
theorem add_edge_undirected_mirror_witness :
    edge_exists [("A", [("B", some 3)]), ("B", [("A", some 3)])] "A" "B" (some 3) = true ∧
    edge_exists [("A", [("B", some 3)]), ("B", [("A", some 3)])] "B" "A" (some 3) = true :=
  add_edge_undirected_mirror [("A", []), ("B", [])] "A" "B" (some 3) rfl rfl
    [("A", [("B", some 3)]), ("B", [("A", some 3)])] rfl

/-- C8: for every graph containing node n, `rename_node(n, n)` raises
`AlreadyExists` (n is still present when `add_node(n)` performs its check),
and the error carries the unchanged graph. -/
theorem rename_node_self_always_fails (g : Graph) (n : String)
    (h : contains g n = true) :
    rename_node g n n = .error (.alreadyExists n, g) := by
  unfold rename_node
  rw [if_pos h]
  simp only [add_node]
  rw [if_pos h]

/-- C8 witness. -/
theorem rename_node_self_always_fails_witness :
    rename_node [("A", [])] "A" "A" = .error (.alreadyExists "A", [("A", [])]) :=
  rename_node_self_always_fails [("A", [])] "A" rfl

/-- C10: when a node named `"Node <n>"` already exists with n the current
class counter, `add_node` with no identifier does not raise `AlreadyExists`:
it succeeds, returns `None`, bumps the counter, and silently replaces that
node's adjacency set with an empty set; all other nodes' adjacency sets
(including inbound entries naming the clobbered node) are untouched. -/
theorem add_node_default_name_clobbers (g : Graph) (ctr : Nat)
    (h : contains g (genName ctr) = true) :
    add_node g none ctr = .ok (setItem g (genName ctr) [], ctr + 1, none) ∧
      lookup (setItem g (genName ctr) []) (genName ctr) = some [] ∧
      ∀ k, k ≠ genName ctr → lookup (setItem g (genName ctr) []) k = lookup g k :=
  ⟨rfl, lookup_setItem_self g (genName ctr) [],
    fun _ hk => lookup_setItem_ne g (genName ctr) [] hk⟩

/-- C10 witness. -/
theorem add_node_default_name_clobbers_witness :
    add_node [("Node 1", [("X", some 2)]), ("X", [("Node 1", some 2)])] none 1 =
      .ok ([("Node 1", []), ("X", [("Node 1", some 2)])], 2, none) ∧
    lookup [("Node 1", []), ("X", [("Node 1", some 2)])] "Node 1" = some [] ∧
    lookup [("Node 1", []), ("X", [("Node 1", some 2)])] "X" =
      lookup [("Node 1", [("X", some 2)]), ("X", [("Node 1", some 2)])] "X" := by
  have h := add_node_default_name_clobbers
    [("Node 1", [("X", some 2)]), ("X", [("Node 1", some 2)])] 1 rfl
  exact ⟨h.1, h.2.1, h.2.2 "X" (by decide)⟩

/-! ### Preservation of the no-dangling-references invariant -/

theorem nodangling_lookupD_mem {g : Graph} (hg : Nodangling g) {n : String}
    {e : String × Weight} (he : e ∈ lookupD g n) : contains g e.1 = true := by
  unfold lookupD at he
  cases hl : lookup g n with
  | none => rw [hl] at he; simp at he
  | some s => rw [hl] at he; exact hg (n, s) (lookup_mem hl) e he

theorem nodangling_setItem {g : Graph} {k : String} {v : AdjSet}
    (hg : Nodangling g)
    (hv : ∀ e ∈ v, contains g e.1 = true ∨ e.1 = k) :
    Nodangling (setItem g k v) := by
  intro p hp e he
  rcases mem_setItem hp with ⟨hpg, _⟩ | rfl
  · exact (contains_setItem g k v e.1).mpr (Or.inl (hg p hpg e he))
  · rcases hv e he with hc | hek
    · exact (contains_setItem g k v e.1).mpr (Or.inl hc)
    · exact (contains_setItem g k v e.1).mpr (Or.inr hek)

theorem contains_mapValues (l : Graph) (f : String → AdjSet → AdjSet) (n : String) :
    contains (l.map (fun p => (p.1, f p.1 p.2))) n = contains l n := by
  unfold contains
  rw [List.any_map]
  rfl

theorem contains_append (l1 l2 : Graph) (n : String) :
    contains (l1 ++ l2) n = (contains l1 n || contains l2 n) := by
  unfold contains
  exact List.any_append

theorem lookup_append_left {g : Graph} {n : String} (l : Graph)
    (h : contains g n = true) : lookup (g ++ l) n = lookup g n := by
  obtain ⟨s, hs⟩ := lookup_isSome_of_contains h
  unfold lookup at hs ⊢
  rw [List.find?_append]
  cases hf : List.find? (fun p => decide (p.1 = n)) g with
  | some q => rfl
  | none => rw [hf] at hs; simp at hs

theorem nodangling_add_node {g : Graph} {newName : Option String} {ctr : Nat}
    {g' : Graph} {ctr' : Nat} {r : Option String}
    (hg : Nodangling g) (h : add_node g newName ctr = .ok (g', ctr', r)) :
    Nodangling g' := by
  cases newName with
  | some n =>
      simp only [add_node] at h
      by_cases hc : contains g n = true
      · rw [if_pos hc] at h
        exact absurd h (by simp)
      · rw [if_neg hc] at h
        simp only [Except.ok.injEq, Prod.mk.injEq] at h
        obtain ⟨h1, _, _⟩ := h
        subst h1
        exact nodangling_setItem hg (by intro e he; simp at he)
  | none =>
      simp only [add_node, Except.ok.injEq, Prod.mk.injEq] at h
      obtain ⟨h1, _, _⟩ := h
      subst h1
      exact nodangling_setItem hg (by intro e he; simp at he)

theorem nodangling_delete_node {g : Graph} {d : String} {g' : Graph}
    (hg : Nodangling g) (h : delete_node g d = .ok g') : Nodangling g' := by
  unfold delete_node at h
  by_cases hc : contains g d = true
  · rw [if_pos hc] at h
    injection h with h2
    subst h2
    intro p hp e he
    obtain ⟨q, hq, rfl⟩ := List.mem_map.mp hp
    rw [List.mem_filter] at he
    have hed : e.1 ≠ d := by simpa using he.2
    have hqg : q ∈ g ∧ q.1 ≠ d := mem_delItem.mp hq
    have hcont : contains g e.1 = true := hg q hqg.1 e he.1
    rw [contains_mapValues ((delItem g d)) (fun _ s => s.filter (fun e => decide (e.1 ≠ d)))]
    rw [contains_delItem]
    exact ⟨hcont, hed⟩
  · rw [if_neg hc] at h
    exact absurd h (by simp)

theorem nodangling_add_edge {g : Graph} {a b : String} {w : Weight} {und : Bool}
    {g' : Graph} (hg : Nodangling g) (h : add_edge g a b w und = .ok g') :
    Nodangling g' := by
  unfold add_edge at h
  by_cases ha : contains g a = true
  case neg => rw [if_neg ha] at h; exact absurd h (by simp)
  rw [if_pos ha] at h
  by_cases hb : contains g b = true
  case neg => rw [if_neg hb] at h; exact absurd h (by simp)
  rw [if_pos hb] at h
  simp only [] at h
  have hg1 : Nodangling (setItem g a (sinsert (b, w) (lookupD g a))) := by
    apply nodangling_setItem hg
    intro e he
    rcases (mem_sinsert _ _ _).mp he with rfl | hmem
    · exact Or.inl hb
    · exact Or.inl (nodangling_lookupD_mem hg hmem)
  cases und with
  | false =>
      injection h with h2
      subst h2
      exact hg1
  | true =>
      injection h with h2
      subst h2
      apply nodangling_setItem hg1
      intro e he
      rcases (mem_sinsert _ _ _).mp he with rfl | hmem
      · exact Or.inl ((contains_setItem _ _ _ _).mpr (Or.inl ha))
      · exact Or.inl (nodangling_lookupD_mem hg1 hmem)

theorem nodangling_remove_edge {g : Graph} {a b : String} {w : Weight} {und : Bool}
    {g' : Graph} (hg : Nodangling g) (h : remove_edge g a b w und = .ok g') :
    Nodangling g' := by
  unfold remove_edge at h
  by_cases hval : edge_exists g a b w = true
  case neg => rw [if_neg hval] at h; exact absurd h (by simp)
  rw [if_pos hval] at h
  simp only [] at h
  have hg1 : Nodangling (setItem g a
      ((lookupD g a).filter (fun e => decide (e ≠ (b, w))))) := by
    apply nodangling_setItem hg
    intro e he
    exact Or.inl (nodangling_lookupD_mem hg (List.mem_filter.mp he).1)
  cases und with
  | false =>
      injection h with h2
      subst h2
      exact hg1
  | true =>
      cases hl : lookup (setItem g a
          ((lookupD g a).filter (fun e => decide (e ≠ (b, w))))) b with
      | none => rw [hl] at h; exact absurd h (by simp)
      | some s =>
          rw [hl] at h
          injection h with h2
          subst h2
          apply nodangling_setItem hg1
          intro e he
          exact Or.inl (hg1 (b, s) (lookup_mem hl) e (List.mem_filter.mp he).1)

/-- The fully-evaluated success result of `rename_node`: the association list
with `old`'s key removed, `new` appended holding `old`'s adjacency set, and
every adjacency set rewritten with `old` relabeled to `new`. -/
def renameBase (g : Graph) (old new : String) : Graph :=
  delItem g old ++ [(new, lookupD g old)]

theorem rename_node_ok_shape (g : Graph) (old new : String)
    (hold : contains g old = true) (hnew : contains g new = false) :
    rename_node g old new =
      .ok ((renameBase g old new).map (fun p => (p.1, rewriteSet old new p.2))) := by
  have honew : old ≠ new := by
    intro hcon
    rw [hcon, hnew] at hold
    exact absurd hold (by simp)
  have hset : setItem g new [] = g ++ [(new, [])] := by
    unfold setItem
    rw [if_neg (by rw [hnew]; simp)]
  have hvOld : lookupD (g ++ [(new, [])]) old = lookupD g old := by
    unfold lookupD
    rw [lookup_append_left _ hold]
  have hdel : delItem (g ++ [(new, [])]) old = delItem g old ++ [(new, [])] := by
    unfold delItem
    rw [List.filter_append]
    congr 1
    simp [honew.symm]
  have hkeys : ∀ p ∈ delItem g old, p.1 ≠ new := by
    intro p hp
    exact (contains_eq_false_iff g new).mp hnew p (mem_delItem.mp hp).1
  have hsetnew : setItem (delItem g old ++ [(new, [])]) new (lookupD g old) =
      delItem g old ++ [(new, lookupD g old)] := by
    unfold setItem
    rw [if_pos (by rw [contains_append]; simp [contains])]
    rw [List.map_append]
    congr 1
    · conv_rhs => rw [← List.map_id (delItem g old)]
      apply List.map_congr_left
      intro p hp
      rw [if_neg (hkeys p hp)]
      rfl
    · simp
  unfold rename_node
  rw [if_pos hold]
  simp only [add_node]
  rw [if_neg (by rw [hnew]; simp : ¬ contains g new = true)]
  dsimp only
  rw [hset, hvOld, hdel, hsetnew]
  rfl

theorem mem_rewriteSet {old new : String} {s : AdjSet} {y : String × Weight} :
    y ∈ rewriteSet old new s ↔
      ∃ e ∈ s, (if e.1 = old then (new, e.2) else e) = y := by
  unfold rewriteSet
  rw [mem_foldl_sinsert (fun e => if e.1 = old then (new, e.2) else e)]
  simp

theorem nodangling_rename_node {g : Graph} {old new : String} {g' : Graph}
    (hg : Nodangling g) (h : rename_node g old new = .ok g') : Nodangling g' := by
  by_cases hold : contains g old = true
  case neg =>
    unfold rename_node at h
    rw [if_neg hold] at h
    exact absurd h (by simp)
  by_cases hnewT : contains g new = true
  case pos =>
    unfold rename_node at h
    rw [if_pos hold] at h
    simp only [add_node] at h
    rw [if_pos hnewT] at h
    exact absurd h (by simp)
  have hnew : contains g new = false := by rwa [Bool.not_eq_true] at hnewT
  rw [rename_node_ok_shape g old new hold hnew] at h
  injection h with h2
  subst h2
  intro p hp e he
  obtain ⟨q, hq, rfl⟩ := List.mem_map.mp hp
  obtain ⟨e0, he0, rfl⟩ := mem_rewriteSet.mp he
  have hcmv : contains
      (List.map (fun p => (p.1, rewriteSet old new p.2)) (renameBase g old new))
      (if e0.1 = old then (new, e0.2) else e0).1 =
      contains (renameBase g old new) (if e0.1 = old then (new, e0.2) else e0).1 :=
    contains_mapValues (renameBase g old new) (fun _ s => rewriteSet old new s) _
  rw [hcmv]
  unfold renameBase
  rw [contains_append]
  by_cases h0 : e0.1 = old
  · rw [if_pos h0]
    simp [contains]
  · rw [if_neg h0]
    have hc : contains g e0.1 = true := by
      rcases List.mem_append.mp hq with hq1 | hq2
      · exact hg q (mem_delItem.mp hq1).1 e0 he0
      · have : q = (new, lookupD g old) := by simpa using hq2
        subst this
        exact nodangling_lookupD_mem hg he0
    rw [Bool.or_eq_true]
    left
    rw [contains_delItem]
    exact ⟨hc, h0⟩

/-- Graph states reachable from a fresh `Graph()` by successful public
mutations (the class counter of `add_node` may hold any value, as other
instances share and advance it). -/
inductive Reachable : Graph → Prop where
  | empty : Reachable []
  | addNode {g : Graph} {newName : Option String} {ctr : Nat} {g' : Graph}
      {ctr' : Nat} {r : Option String} :
      Reachable g → add_node g newName ctr = .ok (g', ctr', r) → Reachable g'
  | deleteNode {g : Graph} {n : String} {g' : Graph} :
      Reachable g → delete_node g n = .ok g' → Reachable g'
  | addEdge {g : Graph} {a b : String} {w : Weight} {und : Bool} {g' : Graph} :
      Reachable g → add_edge g a b w und = .ok g' → Reachable g'
  | removeEdge {g : Graph} {a b : String} {w : Weight} {und : Bool} {g' : Graph} :
      Reachable g → remove_edge g a b w und = .ok g' → Reachable g'
  | renameNode {g : Graph} {old new : String} {g' : Graph} :
      Reachable g → rename_node g old new = .ok g' → Reachable g'

/-- C4: every graph state reachable by any sequence of the public operations
satisfies the no-dangling-references invariant, and after a successful
`delete_node(d)` no remaining node's adjacency set contains an entry naming
`d`. -/
theorem reachable_nodangling_and_delete_purges :
    (∀ g, Reachable g → Nodangling g) ∧
    (∀ (g : Graph) (d : String) (g' : Graph), delete_node g d = .ok g' →
      ∀ p ∈ g', ∀ e ∈ p.2, e.1 ≠ d) := by
  constructor
  · intro g hreach
    induction hreach with
    | empty => intro p hp e he; simp at hp
    | addNode _ hstep ih => exact nodangling_add_node ih hstep
    | deleteNode _ hstep ih => exact nodangling_delete_node ih hstep
    | addEdge _ hstep ih => exact nodangling_add_edge ih hstep
    | removeEdge _ hstep ih => exact nodangling_remove_edge ih hstep
    | renameNode _ hstep ih => exact nodangling_rename_node ih hstep
  · intro g d g' h p hp e he
    unfold delete_node at h
    by_cases hc : contains g d = true
    · rw [if_pos hc] at h
      injection h with h2
      subst h2
      obtain ⟨q, hq, rfl⟩ := List.mem_map.mp hp
      rw [List.mem_filter] at he
      simpa using he.2
    · rw [if_neg hc] at h
      exact absurd h (by simp)

/-- C4 witness. -/
theorem reachable_nodangling_and_delete_purges_witness :
    Nodangling [] ∧ ("C" : String) ≠ "B" :=
  ⟨reachable_nodangling_and_delete_purges.1 [] Reachable.empty,
   reachable_nodangling_and_delete_purges.2
     [("A", [("B", some 1), ("C", some 2)]), ("B", []), ("C", [])] "B"
     [("A", [("C", some 2)]), ("C", [])] rfl
     ("A", [("C", some 2)]) (by decide) ("C", some 2) (by decide)⟩

theorem edge_exists_contains_target {g : Graph} {a b : String} {w : Weight}
    (h : edge_exists g a b w = true) (hg : Nodangling g) : contains g b = true := by
  unfold edge_exists at h
  cases hl : lookup g a with
  | none => rw [hl] at h; simp at h
  | some s =>
      rw [hl] at h
      cases w with
      | none =>
          obtain ⟨e, he, hd⟩ := List.any_eq_true.mp h
          rw [decide_eq_true_iff] at hd
          rw [← hd]
          exact hg (a, s) (lookup_mem hl) e he
      | some v =>
          obtain ⟨e, he, hd⟩ := List.any_eq_true.mp h
          rw [decide_eq_true_iff] at hd
          subst hd
          exact hg (a, s) (lookup_mem hl) _ he

/-- One public mutating operation, for stating properties uniformly over all
five mutators. -/
inductive Op where
  | addNode (newName : Option String) (ctr : Nat)
  | deleteNode (n : String)
  | addEdge (a b : String) (w : Weight) (und : Bool)
  | removeEdge (a b : String) (w : Weight) (und : Bool)
  | renameNode (old new : String)

/-- Run one mutating operation on a graph (dropping `add_node`'s counter and
return value, which are not part of the adjacency state). -/
def runOp (g : Graph) : Op → Except (GraphError × Graph) Graph
  | .addNode newName ctr => (add_node g newName ctr).map (fun r => r.1)
  | .deleteNode n => delete_node g n
  | .addEdge a b w und => add_edge g a b w und
  | .removeEdge a b w und => remove_edge g a b w und
  | .renameNode old new => rename_node g old new

/-- C3: atomicity on failure. For every graph satisfying the data-model
invariant (no dangling references), every mutating operation that raises an
error leaves the graph state exactly as it was before the call: the state
carried out by the exception equals the input state, because all validation
happens before any mutation is applied. -/
theorem mutation_error_leaves_state_unchanged (g : Graph) (op : Op)
    (e : GraphError) (gerr : Graph) (hg : Nodangling g)
    (h : runOp g op = .error (e, gerr)) : gerr = g := by
  cases op with
  | addNode newName ctr =>
      cases newName with
      | some n =>
          simp only [runOp, add_node] at h
          by_cases hc : contains g n = true
          · rw [if_pos hc] at h
            simp only [Except.map, Except.error.injEq, Prod.mk.injEq] at h
            exact h.2.symm
          · rw [if_neg hc] at h
            simp [Except.map] at h
      | none => simp [runOp, add_node, Except.map] at h
  | deleteNode n =>
      simp only [runOp] at h
      unfold delete_node at h
      by_cases hc : contains g n = true
      · rw [if_pos hc] at h
        exact absurd h (by simp)
      · rw [if_neg hc] at h
        simp only [Except.error.injEq, Prod.mk.injEq] at h
        exact h.2.symm
  | addEdge a b w und =>
      simp only [runOp] at h
      unfold add_edge at h
      by_cases ha : contains g a = true
      case neg =>
        rw [if_neg ha] at h
        simp only [Except.error.injEq, Prod.mk.injEq] at h
        exact h.2.symm
      rw [if_pos ha] at h
      by_cases hb : contains g b = true
      case neg =>
        rw [if_neg hb] at h
        simp only [Except.error.injEq, Prod.mk.injEq] at h
        exact h.2.symm
      rw [if_pos hb] at h
      simp only [] at h
      cases und with
      | false => exact absurd h (by simp)
      | true => exact absurd h (by simp)
  | removeEdge a b w und =>
      simp only [runOp] at h
      unfold remove_edge at h
      by_cases hval : edge_exists g a b w = true
      case neg =>
        rw [if_neg hval] at h
        simp only [Except.error.injEq, Prod.mk.injEq] at h
        exact h.2.symm
      rw [if_pos hval] at h
      simp only [] at h
      cases und with
      | false => exact absurd h (by simp)
      | true =>
          cases hl : lookup (setItem g a
              ((lookupD g a).filter (fun x => decide (x ≠ (b, w))))) b with
          | some s => rw [hl] at h; exact absurd h (by simp)
          | none =>
              exfalso
              have hcb : contains g b = true := edge_exists_contains_target hval hg
              have : contains (setItem g a
                  ((lookupD g a).filter (fun x => decide (x ≠ (b, w))))) b = true :=
                (contains_setItem _ _ _ _).mpr (Or.inl hcb)
              obtain ⟨s, hs⟩ := lookup_isSome_of_contains this
              rw [hl] at hs
              simp at hs
  | renameNode old new =>
      simp only [runOp] at h
      unfold rename_node at h
      by_cases hold : contains g old = true
      case neg =>
        rw [if_neg hold] at h
        simp only [Except.error.injEq, Prod.mk.injEq] at h
        exact h.2.symm
      rw [if_pos hold] at h
      simp only [add_node] at h
      by_cases hnew : contains g new = true
      · rw [if_pos hnew] at h
        dsimp only at h
        simp only [Except.error.injEq, Prod.mk.injEq] at h
        exact h.2.symm
      · rw [if_neg hnew] at h
        dsimp only at h
        exact absurd h (by simp)

/-- C3 witness. -/
theorem mutation_error_leaves_state_unchanged_witness :
    ([("A", [])] : Graph) = [("A", [])] :=
  mutation_error_leaves_state_unchanged [("A", [])] (.addNode (some "A") 0)
    (.alreadyExists "A") [("A", [])] (by decide) rfl

theorem lookup_map_values (l : Graph) (f : AdjSet → AdjSet) (n : String) :
    lookup (l.map (fun p => (p.1, f p.2))) n = (lookup l n).map f := by
  unfold lookup
  induction l with
  | nil => rfl
  | cons p t ih =>
      by_cases hp : p.1 = n
      · rw [List.map_cons, List.find?_cons_of_pos, List.find?_cons_of_pos] <;> simp [hp]
      · rw [List.map_cons, List.find?_cons_of_neg, List.find?_cons_of_neg]
        · exact ih
        · simpa using hp
        · simpa using hp

theorem lookup_delItem_ne (g : Graph) (k : String) {n : String} (h : n ≠ k) :
    lookup (delItem g k) n = lookup g n := by
  unfold delItem lookup
  induction g with
  | nil => rfl
  | cons p t ih =>
      by_cases hpk : p.1 = k
      · rw [List.filter_cons_of_neg (by simp [hpk]), List.find?_cons_of_neg]
        · exact ih
        · simp only [decide_eq_true_iff, hpk]
          exact fun hh => h hh.symm
      · rw [List.filter_cons_of_pos (by simp [hpk])]
        by_cases hpn : p.1 = n
        · rw [List.find?_cons_of_pos, List.find?_cons_of_pos] <;> simp [hpn]
        · rw [List.find?_cons_of_neg, List.find?_cons_of_neg]
          · exact ih
          · simpa using hpn
          · simpa using hpn

theorem lookup_renameBase_new (g : Graph) (old new : String)
    (hnew : contains g new = false) :
    lookup (renameBase g old new) new = some (lookupD g old) := by
  unfold renameBase lookup
  rw [List.find?_append, List.find?_eq_none.mpr, Option.none_or]
  · rw [List.find?_cons_of_pos _ (by simp)]
    rfl
  · intro p hp
    have := (contains_eq_false_iff g new).mp hnew p (mem_delItem.mp hp).1
    simpa using this

/-- C5: renaming is structure-preserving. For every graph where `old` is
present and `new` is absent, after a successful `rename_node(old, new)`:
every outbound edge of `old` appears (with `old` relabeled to `new` also as a
target, covering self-loops) in `new`'s adjacency set with identical weight;
every inbound edge `(old, w)` of any other node `x` is now `(new, w)` in `x`'s
set with identical weight; and no adjacency entry anywhere references `old`. -/
theorem rename_node_structure_preserving (g : Graph) (old new : String)
    (hold : contains g old = true) (hnew : contains g new = false)
    (g' : Graph) (h : rename_node g old new = .ok g') :
    (∀ e ∈ lookupD g old,
       (if e.1 = old then (new, e.2) else e) ∈ lookupD g' new) ∧
    (∀ x, x ≠ old → ∀ w, (old, w) ∈ lookupD g x → (new, w) ∈ lookupD g' x) ∧
    (∀ p ∈ g', ∀ e ∈ p.2, e.1 ≠ old) := by
  have honew : old ≠ new := by
    intro hcon
    rw [hcon, hnew] at hold
    exact absurd hold (by simp)
  rw [rename_node_ok_shape g old new hold hnew] at h
  injection h with h2
  subst h2
  refine ⟨?_, ?_, ?_⟩
  · intro e he
    unfold lookupD
    rw [lookup_map_values, lookup_renameBase_new g old new hnew]
    simp only [Option.map, Option.getD]
    exact mem_rewriteSet.mpr ⟨e, he, rfl⟩
  · intro x hx w hw
    cases hlx : lookup g x with
    | none =>
        rw [lookupD, hlx] at hw
        simp at hw
    | some s =>
        rw [lookupD, hlx] at hw
        unfold lookupD
        rw [lookup_map_values]
        have hdel : lookup (delItem g old) x = some s :=
          (lookup_delItem_ne g old hx).trans hlx
        have happ : lookup (renameBase g old new) x = some s := by
          unfold renameBase
          rw [lookup_append_left _ (contains_of_lookup hdel)]
          exact hdel
        rw [happ]
        simp only [Option.map, Option.getD]
        refine mem_rewriteSet.mpr ⟨(old, w), hw, ?_⟩
        rw [if_pos rfl]
  · intro p hp e he
    obtain ⟨q, hq, rfl⟩ := List.mem_map.mp hp
    obtain ⟨e0, _, rfl⟩ := mem_rewriteSet.mp he
    by_cases h0 : e0.1 = old
    · rw [if_pos h0]
      exact honew.symm
    · rw [if_neg h0]
      exact h0

/-- C5 witness. -/
theorem rename_node_structure_preserving_witness :
    (("Y", some 3) : String × Weight) ∈
      lookupD [("Y", [("Z", some 3)]), ("Z", [("Y", some 3)])] "Z" ∧
    (("Z", some 3) : String × Weight) ∈
      lookupD [("Y", [("Z", some 3)]), ("Z", [("Y", some 3)])] "Y" := by
  have h := rename_node_structure_preserving
    [("X", [("Y", some 3)]), ("Y", [("X", some 3)])] "X" "Z" rfl rfl
    [("Y", [("Z", some 3)]), ("Z", [("Y", some 3)])] rfl
  refine ⟨?_, h.2.1 "Y" (by decide) (some 3) (by decide)⟩
  have h1 := h.1 ("Y", some 3) (by decide)
  simpa using h1

theorem lookup_eq_of_mem_nodup {g : Graph} (hnd : KeysNodup g) {p : String × AdjSet}
    (hp : p ∈ g) : lookup g p.1 = some p.2 := by
  induction g with
  | nil => simp at hp
  | cons q t ih =>
      unfold KeysNodup at hnd
      rw [List.map_cons, List.nodup_cons] at hnd
      rcases List.mem_cons.mp hp with rfl | hp'
      · unfold lookup
        rw [List.find?_cons_of_pos _ (by simp)]
        rfl
      · have hq1 : ¬(q.1 = p.1) := by
          intro hcon
          exact hnd.1 (hcon ▸ List.mem_map.mpr ⟨p, hp', rfl⟩)
        unfold lookup
        rw [List.find?_cons_of_neg _ (by simpa using hq1)]
        exact ih hnd.2 hp'

theorem setItem_lookupD_self {g : Graph} {k : String} (hnd : KeysNodup g)
    (hc : contains g k = true) : setItem g k (lookupD g k) = g := by
  unfold setItem
  rw [if_pos hc]
  conv_rhs => rw [← List.map_id g]
  apply List.map_congr_left
  intro p hp
  by_cases hpk : p.1 = k
  · rw [if_pos hpk]
    have hl := lookup_eq_of_mem_nodup hnd hp
    rw [hpk] at hl
    have h2 : lookupD g k = p.2 := by rw [lookupD, hl]; rfl
    rw [h2, ← hpk]
    rfl
  · rw [if_neg hpk]
    rfl

theorem setItem_absorb {g : Graph} {k : String} {v : AdjSet} (hnd : KeysNodup g)
    (hk : contains g k = true) (hv : lookupD g k = v) :
    setItem g k v = g := by
  rw [← hv]
  exact setItem_lookupD_self hnd hk

theorem keysNodup_setItem {g : Graph} {k : String} (v : AdjSet)
    (hnd : KeysNodup g) (hc : contains g k = true) : KeysNodup (setItem g k v) := by
  unfold KeysNodup at hnd ⊢
  rw [keys_setItem_of_contains v hc]
  exact hnd

/-- C9: idempotence of `add_edge`. For every graph (with the Python-dict
guarantee of unique keys) containing nodes a and b, running
`add_edge(a, b, w, undirected)` a second time with the same arguments leaves
the adjacency state exactly as after the first run: the `(neighbor, weight)`
tuples live in sets, so the duplicate inserts are no-ops. -/
theorem add_edge_idempotent (g : Graph) (a b : String) (w : Weight) (und : Bool)
    (hnd : KeysNodup g) (ha : contains g a = true) (hb : contains g b = true)
    (g' : Graph) (h : add_edge g a b w und = .ok g') :
    add_edge g' a b w und = .ok g' := by
  unfold add_edge at h ⊢
  rw [if_pos ha, if_pos hb] at h
  simp only [] at h
  have hnd1 : KeysNodup (setItem g a (sinsert (b, w) (lookupD g a))) :=
    keysNodup_setItem _ hnd ha
  have ha1 : contains (setItem g a (sinsert (b, w) (lookupD g a))) a = true :=
    (contains_setItem _ _ _ _).mpr (Or.inl ha)
  have hb1 : contains (setItem g a (sinsert (b, w) (lookupD g a))) b = true :=
    (contains_setItem _ _ _ _).mpr (Or.inl hb)
  have hl1 : lookupD (setItem g a (sinsert (b, w) (lookupD g a))) a =
      sinsert (b, w) (lookupD g a) := by
    rw [lookupD, lookup_setItem_self]
    rfl
  cases und with
  | false =>
      injection h with h2
      subst h2
      rw [if_pos ha1, if_pos hb1]
      simp only []
      rw [if_neg Bool.false_ne_true]
      rw [setItem_absorb hnd1 ha1 (by
        rw [hl1]
        exact (sinsert_of_mem ((mem_sinsert _ _ _).mpr (Or.inl rfl))).symm)]
  | true =>
      injection h with h2
      subst h2
      have hnd2 : KeysNodup (setItem (setItem g a (sinsert (b, w) (lookupD g a))) b
          (sinsert (a, w) (lookupD (setItem g a (sinsert (b, w) (lookupD g a))) b))) :=
        keysNodup_setItem _ hnd1 hb1
      have ha2 : contains (setItem (setItem g a (sinsert (b, w) (lookupD g a))) b
          (sinsert (a, w) (lookupD (setItem g a (sinsert (b, w) (lookupD g a))) b))) a =
          true :=
        (contains_setItem _ _ _ _).mpr (Or.inl ha1)
      have hb2 : contains (setItem (setItem g a (sinsert (b, w) (lookupD g a))) b
          (sinsert (a, w) (lookupD (setItem g a (sinsert (b, w) (lookupD g a))) b))) b =
          true :=
        (contains_setItem _ _ _ _).mpr (Or.inl hb1)
      have hbm : (b, w) ∈ lookupD (setItem (setItem g a (sinsert (b, w) (lookupD g a))) b
          (sinsert (a, w) (lookupD (setItem g a (sinsert (b, w) (lookupD g a))) b))) a := by
        by_cases hab : a = b
        · rw [lookupD, ← hab, lookup_setItem_self]
          exact (mem_sinsert _ _ _).mpr (Or.inl (by rw [hab]))
        · rw [lookupD, lookup_setItem_ne _ _ _ hab, lookup_setItem_self]
          exact (mem_sinsert _ _ _).mpr (Or.inl rfl)
      have ham : (a, w) ∈ lookupD (setItem (setItem g a (sinsert (b, w) (lookupD g a))) b
          (sinsert (a, w) (lookupD (setItem g a (sinsert (b, w) (lookupD g a))) b))) b := by
        rw [lookupD, lookup_setItem_self]
        exact (mem_sinsert _ _ _).mpr (Or.inl rfl)
      rw [if_pos ha2, if_pos hb2]
      simp only []
      rw [setItem_absorb hnd2 ha2 (sinsert_of_mem hbm).symm,
        setItem_absorb hnd2 hb2 (sinsert_of_mem ham).symm]
      rw [if_pos trivial]

/-- C9 witness. -/
theorem add_edge_idempotent_witness :
    add_edge [("A", [("B", some 1)]), ("B", [("A", some 1)])] "A" "B" (some 1) true =
      .ok [("A", [("B", some 1)]), ("B", [("A", some 1)])] :=
  add_edge_idempotent [("A", []), ("B", [])] "A" "B" (some 1) true (by decide) rfl rfl
    [("A", [("B", some 1)]), ("B", [("A", some 1)])] rfl

theorem fold_edges_empties (l : Graph) (acc : List (String × String × Weight × Bool))
    (h : ∀ p ∈ l, p.2 = []) :
    l.foldl (fun acc p => p.2.foldl (processEdge p.1) acc) acc = acc := by
  induction l generalizing acc with
  | nil => rfl
  | cons q t ih =>
      have hq : q.2 = [] := h q (List.mem_cons_self q t)
      rw [List.foldl_cons, hq]
      exact ih acc (fun p hp => h p (List.mem_cons_of_mem q hp))

theorem fold_edges_two (A B : String) (l1 l2 l3 : Graph)
    (h1 : ∀ p ∈ l1, p.2 = []) (h2 : ∀ p ∈ l2, p.2 = []) (h3 : ∀ p ∈ l3, p.2 = []) :
    get_all_edges (l1 ++ (A, [(B, some 5)]) :: (l2 ++ (B, [(A, some 5)]) :: l3)) =
      [(B, A, some 5, true)] := by
  unfold get_all_edges
  rw [List.foldl_append, fold_edges_empties l1 _ h1, List.foldl_cons]
  have step1 : ([((B : String), (some 5 : Weight))]).foldl (processEdge A) [] =
      [(A, B, some 5, false)] := by
    simp [processEdge, sinsert]
  rw [step1, List.foldl_append, fold_edges_empties l2 _ h2, List.foldl_cons]
  have step2 : ([((A : String), (some 5 : Weight))]).foldl (processEdge B)
      [(A, B, some 5, false)] = [(B, A, some 5, true)] := by
    simp [processEdge, sinsert]
  rw [step2, fold_edges_empties l3 _ h3]

theorem key_ne_of_not_mem {l : Graph} {x : String} (h : x ∉ l.map Prod.fst)
    {p : String × AdjSet} (hp : p ∈ l) : p.1 ≠ x := by
  intro hcon
  exact h (hcon ▸ List.mem_map.mpr ⟨p, hp, rfl⟩)

theorem two_entry_decomp (g : Graph) (A B : String) (hAB : A ≠ B)
    (hnd : KeysNodup g) {sA sB : AdjSet}
    (hA : (A, sA) ∈ g) (hB : (B, sB) ∈ g) :
    ∃ l1 l2 l3,
      ((g = l1 ++ (A, sA) :: (l2 ++ (B, sB) :: l3)) ∨
       (g = l1 ++ (B, sB) :: (l2 ++ (A, sA) :: l3))) ∧
      (∀ p ∈ l1, p.1 ≠ A ∧ p.1 ≠ B) ∧ (∀ p ∈ l2, p.1 ≠ A ∧ p.1 ≠ B) ∧
      (∀ p ∈ l3, p.1 ≠ A ∧ p.1 ≠ B) := by
  obtain ⟨t1, t2, hg⟩ := List.append_of_mem hA
  subst hg
  have hBmem : (B, sB) ∈ t1 ∨ (B, sB) ∈ t2 := by
    rcases List.mem_append.mp hB with h | h
    · exact Or.inl h
    · rcases List.mem_cons.mp h with hmid | h
      · exact absurd (congrArg Prod.fst hmid) hAB.symm
      · exact Or.inr h
  rcases hBmem with hBt | hBt
  · obtain ⟨u1, u2, hg⟩ := List.append_of_mem hBt
    subst hg
    unfold KeysNodup at hnd
    simp only [List.map_append, List.map_cons] at hnd
    rw [List.nodup_append] at hnd
    obtain ⟨ndL, ndR, hdisj⟩ := hnd
    rw [List.nodup_append] at ndL
    obtain ⟨_, ndB, hdisj1⟩ := ndL
    rw [List.nodup_cons] at ndB ndR
    have hAu1 : A ∉ u1.map Prod.fst := fun hm =>
      hdisj (List.mem_append.mpr (Or.inl hm)) (List.mem_cons_self _ _)
    have hAu2 : A ∉ u2.map Prod.fst := fun hm =>
      hdisj (List.mem_append.mpr (Or.inr (List.mem_cons.mpr (Or.inr hm))))
        (List.mem_cons_self _ _)
    have hAt2 : A ∉ t2.map Prod.fst := ndR.1
    have hBu1 : B ∉ u1.map Prod.fst := fun hm =>
      hdisj1 hm (List.mem_cons_self _ _)
    have hBu2 : B ∉ u2.map Prod.fst := ndB.1
    have hBt2 : B ∉ t2.map Prod.fst := fun hm =>
      hdisj (List.mem_append.mpr (Or.inr (List.mem_cons_self _ _)))
        (List.mem_cons.mpr (Or.inr hm))
    exact ⟨u1, u2, t2, Or.inr (by simp),
      fun p hp => ⟨key_ne_of_not_mem hAu1 hp, key_ne_of_not_mem hBu1 hp⟩,
      fun p hp => ⟨key_ne_of_not_mem hAu2 hp, key_ne_of_not_mem hBu2 hp⟩,
      fun p hp => ⟨key_ne_of_not_mem hAt2 hp, key_ne_of_not_mem hBt2 hp⟩⟩
  · obtain ⟨u1, u2, hg⟩ := List.append_of_mem hBt
    subst hg
    unfold KeysNodup at hnd
    simp only [List.map_append, List.map_cons] at hnd
    rw [List.nodup_append] at hnd
    obtain ⟨_, ndR, hdisj⟩ := hnd
    rw [List.nodup_cons] at ndR
    obtain ⟨hAnot, ndR2⟩ := ndR
    rw [List.nodup_append] at ndR2
    obtain ⟨_, ndB, hdisj2⟩ := ndR2
    rw [List.nodup_cons] at ndB
    have hAt1 : A ∉ t1.map Prod.fst := fun hm => hdisj hm (List.mem_cons_self _ _)
    have hAu1 : A ∉ u1.map Prod.fst := fun hm =>
      hAnot (List.mem_append.mpr (Or.inl hm))
    have hAu2 : A ∉ u2.map Prod.fst := fun hm =>
      hAnot (List.mem_append.mpr (Or.inr (List.mem_cons.mpr (Or.inr hm))))
    have hBt1 : B ∉ t1.map Prod.fst := fun hm =>
      hdisj hm (List.mem_cons.mpr (Or.inr (List.mem_append.mpr
        (Or.inr (List.mem_cons_self _ _)))))
    have hBu1 : B ∉ u1.map Prod.fst := fun hm =>
      hdisj2 hm (List.mem_cons_self _ _)
    have hBu2 : B ∉ u2.map Prod.fst := ndB.1
    exact ⟨t1, u1, u2, Or.inl (by simp),
      fun p hp => ⟨key_ne_of_not_mem hAt1 hp, key_ne_of_not_mem hBt1 hp⟩,
      fun p hp => ⟨key_ne_of_not_mem hAu1 hp, key_ne_of_not_mem hBu1 hp⟩,
      fun p hp => ⟨key_ne_of_not_mem hAu2 hp, key_ne_of_not_mem hBu2 hp⟩⟩

/-- C6: on every well-formed graph whose only edge is the single undirected
edge (A, B, 5) — A's adjacency set is exactly the tuple (B, 5), B's is exactly
(A, 5), and every other node's set is empty — `get_all_edges` returns exactly
one tuple, either (A, B, 5, True) or (B, A, 5, True): the mirrored pair of
directed entries is collapsed into one logical edge with the bidirectional
flag True, never reported twice. -/
theorem get_all_edges_single_undirected (g : Graph) (A B : String)
    (hAB : A ≠ B) (hnd : KeysNodup g)
    (hcA : contains g A = true) (hcB : contains g B = true)
    (hPW : ∀ p ∈ g, p.2 = if p.1 = A then [(B, some 5)] else
        if p.1 = B then [(A, some 5)] else []) :
    get_all_edges g = [(A, B, some 5, true)] ∨
    get_all_edges g = [(B, A, some 5, true)] := by
  obtain ⟨sA, hsA⟩ := (contains_iff_exists_mem g A).mp hcA
  have hvA : sA = [(B, some 5)] := by
    have := hPW (A, sA) hsA
    simpa using this
  subst hvA
  obtain ⟨sB, hsB⟩ := (contains_iff_exists_mem g B).mp hcB
  have hvB : sB = [(A, some 5)] := by
    have := hPW (B, sB) hsB
    simpa [Ne.symm hAB] using this
  subst hvB
  obtain ⟨l1, l2, l3, hshape, hk1, hk2, hk3⟩ := two_entry_decomp g A B hAB hnd hsA hsB
  have hval : ∀ (l : Graph), (∀ p ∈ l, p.1 ≠ A ∧ p.1 ≠ B) →
      (∀ p ∈ l, p ∈ g) → ∀ p ∈ l, p.2 = [] := by
    intro l hk hsub p hp
    have := hPW p (hsub p hp)
    rcases hk p hp with ⟨h1, h2⟩
    simpa [h1, h2] using this
  rcases hshape with hg | hg
  · right
    rw [hg]
    exact fold_edges_two A B l1 l2 l3
      (hval l1 hk1 (fun p hp => by rw [hg]; simp [hp]))
      (hval l2 hk2 (fun p hp => by rw [hg]; simp [hp]))
      (hval l3 hk3 (fun p hp => by rw [hg]; simp [hp]))
  · left
    rw [hg]
    exact fold_edges_two B A l1 l2 l3
      (hval l1 hk1 (fun p hp => by rw [hg]; simp [hp]))
      (hval l2 hk2 (fun p hp => by rw [hg]; simp [hp]))
      (hval l3 hk3 (fun p hp => by rw [hg]; simp [hp]))

/-- C6 witness. -/
theorem get_all_edges_single_undirected_witness :
    get_all_edges [("A", [("B", some 5)]), ("B", [("A", some 5)])] =
      [("A", "B", some 5, true)] ∨
    get_all_edges [("A", [("B", some 5)]), ("B", [("A", some 5)])] =
      [("B", "A", some 5, true)] :=
  get_all_edges_single_undirected [("A", [("B", some 5)]), ("B", [("A", some 5)])]
    "A" "B" (by decide) (by decide) rfl rfl (by decide)
